import Mathlib

/-!
Verification of the HTTP server in src/app/main.ts (the revision with gzip
support, which is the latest of the snapshots in the file).  The embedding
works over `List Char` for the textual operations of the source (JavaScript
string splitting, trimming, replacing) and over `List Nat` for the bytes
that are written to the socket.

Modelling notes:
* JavaScript strings are embedded as `List Char`; `String.prototype.split`
  with a non-empty separator is embedded by `splitOnChar` / `splitCrlf`.
* The route matcher built by `new RegExp` from a route template is embedded
  by `parseRoute` / `matchPieces`: the template is cut into literal
  characters and `:name` parameter groups (the source regex `:[^\s/]+`),
  and a parameter group matches one or more word/hyphen characters with
  greedy backtracking, anchored at both ends, exactly as the constructed
  regex `^...([\w-]+)...$` does.  Route literals of this application
  ("/", "/echo/:str", "/user-agent", "/files/:filename") contain no regex
  metacharacters, so literal-by-literal comparison is faithful.
* `Buffer` values are `List Nat`; `Buffer.byteLength` of a string is the
  length of its UTF-8 encoding, computed by `utf8Bytes`.
* The filesystem (`fs.readFileSync` / `fs.writeFileSync`) is an external
  collaborator; it is modelled as a function from paths to optional byte
  contents, threaded through the handlers.  `writeFileSync` failure is not
  modelled (the model filesystem always accepts writes).
* A JavaScript exception escaping the `data` handler (unknown method,
  header line without a colon, missing request path) is modelled as `none`.
-/

namespace TsHttp

abbrev Chars := List Char
abbrev KV := Chars × Chars
abbrev Bytes := List Nat

/-- JS regex `\w` together with `-`: the character class `[\w-]` that the
route matcher substitutes for each `:name` parameter. -/
def isWordHyphen (c : Char) : Bool :=
  (97 ≤ c.toNat && c.toNat ≤ 122) || (65 ≤ c.toNat && c.toNat ≤ 90) ||
  (48 ≤ c.toNat && c.toNat ≤ 57) || c = '_' || c = '-'

/-- ASCII whitespace as treated by JS `\s` and `String.prototype.trim`
(space, tab, line feed, carriage return, vertical tab, form feed). -/
def jsSpaceChar (c : Char) : Bool :=
  c.toNat = 32 || c.toNat = 9 || c.toNat = 10 || c.toNat = 13 ||
  c.toNat = 11 || c.toNat = 12

/-- A character allowed inside a `:name` parameter token of a route
template: the source scans templates with the regex `:[^\s/]+`. -/
def validParamChar (c : Char) : Bool := !(jsSpaceChar c) && c ≠ '/'

/-- JS `String.prototype.trim`: drop whitespace from both ends. -/
def jsTrim (xs : Chars) : Chars :=
  ((xs.dropWhile jsSpaceChar).reverse.dropWhile jsSpaceChar).reverse

/-- JS `String.prototype.replace` with a one-character string pattern:
replaces only the first occurrence. -/
def replaceFirstChar (a b : Char) : Chars → Chars
  | [] => []
  | c :: cs => if c = a then b :: cs else c :: replaceFirstChar a b cs

/-- JS `String.prototype.toLowerCase` on the ASCII range. -/
def toLowerJs (xs : Chars) : Chars := xs.map Char.toLower

/-- JS `String.prototype.split` with a one-character separator. -/
def splitOnChar (sep : Char) : Chars → List Chars
  | [] => [[]]
  | x :: xs =>
    if x = sep then [] :: splitOnChar sep xs
    else
      match splitOnChar sep xs with
      | [] => [[x]]
      | y :: ys => (x :: y) :: ys

/-- JS `String.prototype.split` with the two-character separator `"\r\n"`. -/
def splitCrlf : Chars → List Chars
  | '\r' :: '\n' :: xs => [] :: splitCrlf xs
  | x :: xs =>
    match splitCrlf xs with
    | [] => [[x]]
    | y :: ys => (x :: y) :: ys
  | [] => [[]]

/-- UTF-8 encoding of a single character (Node `Buffer.from(s)` payload). -/
def utf8Char (c : Char) : Bytes :=
  let n := c.toNat
  if n < 128 then [n]
  else if n < 2048 then [192 + n / 64, 128 + n % 64]
  else if n < 65536 then [224 + n / 4096, 128 + (n / 64) % 64, 128 + n % 64]
  else [240 + n / 262144, 128 + (n / 4096) % 64, 128 + (n / 64) % 64, 128 + n % 64]

/-- UTF-8 encoding of a string, as written to the socket. -/
def utf8Bytes (xs : Chars) : Bytes := xs.flatMap utf8Char

/-- Decimal rendering of a number, as produced by JS `toString()`. -/
def natChars (n : Nat) : Chars := (Nat.repr n).data

/-- JS object / `Map` key update: an existing key keeps its position and
gets the new value, a new key is appended.  Models both the header `Map`
of `HttpRes` and the object built by the header-parsing `reduce`. -/
def jsUpsert (hs : List KV) (k v : Chars) : List KV :=
  if hs.any (fun p => p.1 == k) then hs.map (fun p => if p.1 = k then (k, v) else p)
  else hs ++ [(k, v)]

/-- JS object / `Map` lookup. -/
def jsLookup (hs : List KV) (k : Chars) : Option Chars :=
  (hs.find? (fun p => p.1 == k)).map (fun p => p.2)

/-- The `StatusCode` union of the source: keys of `ReasonPhrases`. -/
inductive Status
  | s200
  | s201
  | s404
deriving DecidableEq

/-- The numeric text of a status code. -/
def Status.codeChars : Status → Chars
  | .s200 => "200".data
  | .s201 => "201".data
  | .s404 => "404".data

/-- The `ReasonPhrases` table of the source. -/
def Status.reasonChars : Status → Chars
  | .s200 => "OK".data
  | .s201 => "Created".data
  | .s404 => "Not Found".data

def crlfL : Chars := ['\r', '\n']

/-- The status line written by `send`. -/
def statusLineChars (c : Status) : Chars :=
  "HTTP/1.1 ".data ++ c.codeChars ++ ' ' :: c.reasonChars ++ crlfL

/-- The `ResType` union of the source (`object | string | Buffer`).  An
object is represented by its JSON serialization, since `JSON.stringify`
(external to the repository) is the only operation `send` applies to it. -/
inductive ResType
  | obj (jsonText : Chars)
  | str (s : Chars)
  | buf (b : Bytes)

/-- The mutable state of an `HttpRes`: status code (default "404"),
insertion-ordered header map, and the encoding decision fixed at
construction. -/
structure HttpResState where
  statusCode : Status
  headers : List KV
  encode : Bool

/-- `HttpRes.status`. -/
def HttpResState.status (st : HttpResState) (c : Status) : HttpResState :=
  { st with statusCode := c }

def ctKey : Chars := "Content-Type".data
def clKey : Chars := "Content-Length".data
def ceKey : Chars := "Content-Encoding".data

/-- Modelled from the spec: `zlib.gzipSync` is external library code, not
part of this repository.  The spec requires only that the emitted body be
gzip data whose decompression equals the original bytes, so compression is
modelled as an injective framing (the two gzip magic bytes followed by the
payload) with `gunzip` as its decoder.  Like real gzip, the compression of
the empty input is non-empty. -/
def gzipSync (b : Bytes) : Bytes := 31 :: 139 :: b

/-- Modelled from the spec: the decoder matching `gzipSync`. -/
def gunzip (b : Bytes) : Option Bytes :=
  match b with
  | 31 :: 139 :: rest => some rest
  | _ => none

/-- The body-typing cascade of `HttpRes.send`: choose the body bytes and
set Content-Type / Content-Length according to the argument. -/
def contentStep (hs : List KV) (data : Option ResType) : List KV × Bytes :=
  match data with
  | some (.obj s) =>
    (jsUpsert (jsUpsert hs ctKey "application/json".data) clKey (natChars (utf8Bytes s).length),
     utf8Bytes s)
  | some (.str s) =>
    (jsUpsert (jsUpsert hs ctKey "text/plain".data) clKey (natChars (utf8Bytes s).length),
     utf8Bytes s)
  | some (.buf b) =>
    (jsUpsert (jsUpsert hs ctKey "application/octet-stream".data) clKey (natChars b.length),
     b)
  | none => (hs, [])

/-- The compression step of `HttpRes.send`: when the encoding decision is
set, gzip the body, add Content-Encoding and overwrite Content-Length. -/
def encodeStep (enc : Bool) (p : List KV × Bytes) : List KV × Bytes :=
  if enc then
    (jsUpsert (jsUpsert p.1 ceKey "gzip".data) clKey (natChars (gzipSync p.2).length),
     gzipSync p.2)
  else p

/-- Serialization of the header map, in insertion order. -/
def headersChars (hs : List KV) : Chars :=
  (hs.map (fun p => p.1 ++ ':' :: ' ' :: p.2 ++ crlfL)).flatten

/-- The textual part written by `send`: status line, headers, blank line. -/
def headChars (st : HttpResState) (data : Option ResType) : Chars :=
  statusLineChars st.statusCode ++
    headersChars (encodeStep st.encode (contentStep st.headers data)).1 ++ crlfL

/-- `HttpRes.send`: all bytes written to the socket for one response. -/
def sendBytes (st : HttpResState) (data : Option ResType) : Bytes :=
  utf8Bytes (headChars st data) ++ (encodeStep st.encode (contentStep st.headers data)).2

/-- The uncompressed body bytes of a `send` argument, as the spec words
"the original uncompressed body". -/
def uncompressedBody : Option ResType → Bytes
  | some (.obj s) => utf8Bytes s
  | some (.str s) => utf8Bytes s
  | some (.buf b) => b
  | none => []

/-- One piece of a compiled route template: a literal character or a
`:name` parameter group. -/
inductive Piece
  | lit (c : Char)
  | param (name : Chars)
deriving DecidableEq

/-- The name of a parameter piece, if any. -/
def Piece.nameOf : Piece → Option Chars
  | .param n => some n
  | .lit _ => none

/-- Scanner turning a route template into pieces, following the source
regex `:[^\s/]+`: a colon opens a parameter name that extends over every
following non-space non-slash character; a colon followed by none stays a
literal.  The second argument holds the parameter name being accumulated. -/
def parseRouteAux : Chars → Option Chars → List Piece
  | [], none => []
  | [], some nm => [if nm.isEmpty then .lit ':' else .param nm]
  | c :: cs, none =>
    if c = ':' then parseRouteAux cs (some [])
    else .lit c :: parseRouteAux cs none
  | c :: cs, some nm =>
    if validParamChar c then parseRouteAux cs (some (nm ++ [c]))
    else
      (if nm.isEmpty then .lit ':' else .param nm) ::
        (if c = ':' then parseRouteAux cs (some [])
         else .lit c :: parseRouteAux cs none)

/-- The compiled form of a route template. -/
def parseRoute (r : Chars) : List Piece := parseRouteAux r none

/-- The parameter names of a route, in template order (the source's
`route.match(/:[^\s/]+/g)` with the colons stripped). -/
def paramNamesOf (r : Chars) : List Chars :=
  (parseRoute r).filterMap Piece.nameOf

/-- Greedy backtracking for one `([\w-]+)` group: try the capture lengths
from the maximal munch down to one, accepting the first length for which
the rest of the pattern matches the rest of the input. -/
def goParamF (g : Chars → Option (List Chars)) (xs : Chars) : Nat → Option (List Chars)
  | 0 => none
  | n + 1 =>
    match g (xs.drop (n + 1)) with
    | some caps => some (xs.take (n + 1) :: caps)
    | none => goParamF g xs n

/-- Anchored matching of compiled route pieces against a path, returning
the captured parameter values.  The first argument is recursion fuel; one
unit is spent per piece, so any fuel above the piece count is enough. -/
def matchPiecesF : Nat → List Piece → Chars → Option (List Chars)
  | 0, _, _ => none
  | _ + 1, [], xs => if xs.isEmpty then some [] else none
  | _ + 1, .lit _ :: _, [] => none
  | f + 1, .lit c :: ps, x :: rest => if x = c then matchPiecesF f ps rest else none
  | f + 1, .param _ :: ps, xs =>
    goParamF (matchPiecesF f ps) xs (xs.takeWhile isWordHyphen).length

/-- `path.match(routeRegex)` of the source: anchored match with captures. -/
def matchPieces (ps : List Piece) (xs : Chars) : Option (List Chars) :=
  matchPiecesF (ps.length + 1) ps xs

/-- Interleaving of route pieces with capture values: the path a match
decomposes into. -/
def reassemble : List Piece → List Chars → Chars
  | [], _ => []
  | .lit c :: ps, caps => c :: reassemble ps caps
  | .param _ :: _, [] => []
  | .param _ :: ps, c :: caps => c ++ reassemble ps caps

/-- The route-resolution loop of `RequestBuilder`: iterate the registered
routes in registration order and stop at the first whose matcher accepts
the path. -/
def firstMatch : List Chars → Chars → Option (Chars × List Chars)
  | [], _ => none
  | r :: rs, path =>
    match matchPieces (parseRoute r) path with
    | some caps => some (r, caps)
    | none => firstMatch rs path

/-- The lines treated as header lines by `RequestBuilder`: the source's
`specialCharSplit.slice(1, specialCharSplit.length - 2)`. -/
def headerLinesOf (raw : Chars) : List Chars :=
  (splitCrlf raw).drop 1 |>.take ((splitCrlf raw).length - 3)

/-- The header-parsing `reduce` of `RequestBuilder`: key is the text
before the first colon with its first hyphen replaced by an underscore,
lower-cased; value is `v.split(':')[1].trim()`.  A line without a colon
makes `split(':')[1]` undefined and `.trim()` throw, modelled as `none`. -/
def parseHeaderLines : List Chars → List KV → Option (List KV)
  | [], acc => some acc
  | l :: ls, acc =>
    match (splitOnChar ':' l).get? 1 with
    | none => none
    | some v =>
      parseHeaderLines ls
        (jsUpsert acc
          (toLowerJs (replaceFirstChar '-' '_' ((splitOnChar ':' l).headD [])))
          (jsTrim v))

/-- The header map a raw request parses to. -/
def headersOfRaw (raw : Chars) : Option (List KV) :=
  parseHeaderLines (headerLinesOf raw) []

/-- The `HttpReq` record built by `RequestBuilder.build`. -/
structure HttpReq where
  method : Chars
  endpoint : Chars
  params : List KV
  headers : List KV
  body : Chars

/-- The params object: parameter names zipped with captures, stored by
`this.params[name] = match[idx + 1]` in order. -/
def mkParams (r : Chars) (caps : List Chars) : List KV :=
  ((paramNamesOf r).zip caps).foldl (fun a p => jsUpsert a p.1 p.2) []

/-- The `RequestBuilder` constructor plus `build`.  `none` models a thrown
exception: a header line without a colon, or a missing request path
(`req.split(" ")[1]` undefined) reaching `this.endpoint.match` while the
route list is non-empty. -/
def buildReq (raw : Chars) (routes : List Chars) : Option HttpReq :=
  match headersOfRaw raw with
  | none => none
  | some hs =>
    match (splitOnChar ' ' raw).get? 1 with
    | some ep =>
      match firstMatch routes ep with
      | some (r, caps) =>
        some ⟨(splitOnChar ' ' raw).headD [], r, mkParams r caps, hs, (splitCrlf raw).getLastD []⟩
      | none =>
        some ⟨(splitOnChar ' ' raw).headD [], ep, [], hs, (splitCrlf raw).getLastD []⟩
    | none =>
      if routes.isEmpty then
        some ⟨(splitOnChar ' ' raw).headD [], [], [], hs, (splitCrlf raw).getLastD []⟩
      else none

/-- The `AcceptableEncoding` set of the source. -/
def acceptableEncoding : List Chars := ["gzip".data]

/-- The encoding decision of the `data` handler: look at the parsed
`accept_encoding` header; with a comma the entries are trimmed and
intersected with the acceptable set, otherwise the whole value must be an
acceptable scheme.  An absent or empty value is falsy. -/
def decideEncoding (hs : List KV) : Bool :=
  match jsLookup hs "accept_encoding".data with
  | none => false
  | some v =>
    if v.isEmpty then false
    else if 1 < (splitOnChar ',' v).length then
      !((acceptableEncoding.filter
          (fun i => ((splitOnChar ',' v).map jsTrim).contains i)).isEmpty)
    else acceptableEncoding.contains v

/-- The `Method` union of the source. -/
inductive Method
  | GET
  | POST
deriving DecidableEq

/-- The filesystem collaborator: path to optional contents. -/
abbrev Fs := Chars → Option Bytes

/-- A route handler: request, fresh response state, filesystem and served
directory in, socket bytes and filesystem out. -/
abbrev Handler := HttpReq → HttpResState → Fs → Chars → Bytes × Fs

/-- Handler of `GET /`. -/
def rootHandler : Handler := fun _ res fs _ =>
  (sendBytes (res.status .s200) none, fs)

/-- Handler of `GET /echo/:str`. -/
def echoHandler : Handler := fun req res fs _ =>
  (sendBytes (res.status .s200) ((jsLookup req.params "str".data).map ResType.str), fs)

/-- Handler of `GET /user-agent` (an absent or empty header is falsy). -/
def userAgentHandler : Handler := fun req res fs _ =>
  match jsLookup req.headers "user_agent".data with
  | some s =>
    if s.isEmpty then
      (sendBytes (res.status .s404) (some (.str "No user-agent header found.".data)), fs)
    else (sendBytes (res.status .s200) (some (.str s)), fs)
  | none =>
    (sendBytes (res.status .s404) (some (.str "No user-agent header found.".data)), fs)

/-- Handler of `GET /files/:filename`: read succeeds with status 200 and
the raw bytes, a read failure is caught and answered with 404 and the
plain-text body "File not found". -/
def getFilesHandler : Handler := fun req res fs dir =>
  match jsLookup req.params "filename".data with
  | some fn =>
    if fn.isEmpty then
      (sendBytes (res.status .s404) (some (.str "File not found".data)), fs)
    else
      match fs (dir ++ fn) with
      | some contents => (sendBytes (res.status .s200) (some (.buf contents)), fs)
      | none => (sendBytes (res.status .s404) (some (.str "File not found".data)), fs)
  | none =>
    (sendBytes (res.status .s404) (some (.str "File not found".data)), fs)

/-- Handler of `POST /files/:filename`: with a truthy filename and a
truthy body, write the file and answer 201 with no body; otherwise fall
off the end of the handler without writing anything to the socket. -/
def postFilesHandler : Handler := fun req res fs dir =>
  match jsLookup req.params "filename".data with
  | some fn =>
    if fn.isEmpty || req.body.isEmpty then ([], fs)
    else
      (sendBytes (res.status .s201) none,
       fun p => if p = dir ++ fn then some (utf8Bytes req.body) else fs p)
  | none => ([], fs)

/-- The endpoint registrations of the application, in registration order. -/
def handlersFor : Method → List (Chars × Handler)
  | .GET =>
    [("/".data, rootHandler), ("/echo/:str".data, echoHandler),
     ("/user-agent".data, userAgentHandler), ("/files/:filename".data, getFilesHandler)]
  | .POST => [("/files/:filename".data, postFilesHandler)]

/-- The registered route patterns of a method, in registration order. -/
def routesFor (m : Method) : List Chars := (handlersFor m).map (fun p => p.1)

/-- `this.endpoints.get(firstToken)`: only "GET" and "POST" have tables;
any other token leaves the table undefined and the request crashes. -/
def methodOfTok (t : Chars) : Option Method :=
  if t = "GET".data then some .GET
  else if t = "POST".data then some .POST
  else none

/-- `methodEndpoints.get(req.endpoint)`: exact key lookup. -/
def lookupHandler (m : Method) (ep : Chars) : Option Handler :=
  ((handlersFor m).find? (fun p => p.1 == ep)).map (fun p => p.2)

/-- The socket `data` handler of `HttpServer`: parse, resolve, compute the
encoding decision, run the handler with a fresh response, or write the
bare `HTTP/1.1 404 Not Found\r\n\r\n` frame when the lookup fails.
`none` models a request on which the handler throws. -/
def serverHandle (raw : Chars) (fs : Fs) (dir : Chars) : Option (Bytes × Fs) :=
  match methodOfTok ((splitOnChar ' ' raw).headD []) with
  | none => none
  | some m =>
    match buildReq raw (routesFor m) with
    | none => none
    | some req =>
      match lookupHandler m req.endpoint with
      | some h => some (h req ⟨.s404, [], decideEncoding req.headers⟩ fs dir)
      | none => some (utf8Bytes "HTTP/1.1 404 Not Found\r\n\r\n".data, fs)

/-- Formalisation of claim C3's wording (a refinement target written from
the claim, not from the source): every CRLF-separated line except the
method line and the final line is a header line; the key is the name
lower-cased with hyphens normalized to underscores; the value is the text
after the first colon trimmed of a single leading space. -/
def dropOneLeadingSpace : Chars → Chars
  | ' ' :: r => r
  | l => l

/-- Formalisation of claim C3's wording, continued: the header map the
claim describes for a raw request. -/
def headersClaimC3 (raw : Chars) : List KV :=
  ((splitCrlf raw).drop 1 |>.take ((splitCrlf raw).length - 2)).foldl
    (fun acc l =>
      jsUpsert acc
        (toLowerJs ((l.takeWhile (fun c => c != ':')).map (fun c => if c = '-' then '_' else c)))
        (dropOneLeadingSpace ((l.dropWhile (fun c => c != ':')).drop 1)))
    []

/-! ### Lemmas about the string-splitting embedding -/

theorem splitCrlf_cons (x : Char) (xs : Chars)
    (h : ∀ t, x = '\r' → xs = '\n' :: t → False) :
    splitCrlf (x :: xs) =
      match splitCrlf xs with
      | [] => [[x]]
      | y :: ys => (x :: y) :: ys := by
  rw [splitCrlf.eq_def]
  split
  · rename_i t heq
    injection heq with hx hrest
    exact (h t hx hrest).elim
  · rename_i x1 xs1 hno heq
    rcases heq with ⟨⟩
    rfl
  · rename_i heq
    exact absurd heq (by simp)

theorem splitCrlf_app (a b : Chars) (ha : '\r' ∉ a) :
    splitCrlf (a ++ '\r' :: '\n' :: b) = a :: splitCrlf b := by
  induction a with
  | nil => rfl
  | cons x a ih =>
    have hx : x ≠ '\r' := fun hh => ha (hh ▸ List.mem_cons_self x a)
    have ha' : '\r' ∉ a := fun hh => ha (List.mem_cons_of_mem x hh)
    rw [List.cons_append, splitCrlf_cons x _ (fun t hxx _ => hx hxx), ih ha']

theorem splitCrlf_none (a : Chars) (ha : '\r' ∉ a) : splitCrlf a = [a] := by
  induction a with
  | nil => rfl
  | cons x a ih =>
    have hx : x ≠ '\r' := fun hh => ha (hh ▸ List.mem_cons_self x a)
    have ha' : '\r' ∉ a := fun hh => ha (List.mem_cons_of_mem x hh)
    rw [splitCrlf_cons x _ (fun t hxx _ => hx hxx), ih ha']

theorem splitOnChar_ne_nil (c : Char) (xs : Chars) : splitOnChar c xs ≠ [] := by
  induction xs with
  | nil => simp [splitOnChar]
  | cons x t ih =>
    rw [splitOnChar.eq_def]
    by_cases hx : x = c
    · simp [hx]
    · simp only [if_neg hx]
      split <;> simp

theorem splitOnChar_app (c : Char) (a b : Chars) (ha : c ∉ a) :
    splitOnChar c (a ++ c :: b) = a :: splitOnChar c b := by
  induction a with
  | nil => simp [splitOnChar]
  | cons x a ih =>
    have hx : x ≠ c := fun hh => ha (hh ▸ List.mem_cons_self x a)
    have ha' : c ∉ a := fun hh => ha (List.mem_cons_of_mem x hh)
    rw [List.cons_append, splitOnChar.eq_def]
    simp only [if_neg hx]
    rw [ih ha']

theorem splitOnChar_none (c : Char) (a : Chars) (ha : c ∉ a) : splitOnChar c a = [a] := by
  induction a with
  | nil => rfl
  | cons x a ih =>
    have hx : x ≠ c := fun hh => ha (hh ▸ List.mem_cons_self x a)
    have ha' : c ∉ a := fun hh => ha (List.mem_cons_of_mem x hh)
    rw [splitOnChar.eq_def]
    simp only [if_neg hx]
    rw [ih ha']

theorem splitOnChar_headD (c : Char) (l : Chars) :
    (splitOnChar c l).headD [] = l.takeWhile (fun a => a != c) := by
  induction l with
  | nil => rfl
  | cons x t ih =>
    rw [splitOnChar.eq_def]
    by_cases hx : x = c
    · simp [hx, List.takeWhile_cons]
    · simp only [if_neg hx]
      cases hsp : splitOnChar c t with
      | nil => exact absurd hsp (splitOnChar_ne_nil c t)
      | cons y ys =>
        rw [hsp] at ih
        simp only [List.headD_cons] at ih
        simp [List.takeWhile_cons, hx, ih]

theorem splitOnChar_get1 (c : Char) (l : Chars) :
    (splitOnChar c l).get? 1 =
      if c ∈ l then some (((l.dropWhile (fun a => a != c)).drop 1).takeWhile (fun a => a != c))
      else none := by
  induction l with
  | nil => rfl
  | cons x t ih =>
    by_cases hx : x = c
    · subst hx
      cases hsp : splitOnChar x t with
      | nil => exact absurd hsp (splitOnChar_ne_nil x t)
      | cons y ys =>
        have hh := splitOnChar_headD x t
        rw [hsp] at hh
        simp only [List.headD_cons] at hh
        rw [splitOnChar.eq_def]
        simp only [if_pos rfl, hsp]
        simp [List.dropWhile_cons, hh]
    · cases hsp : splitOnChar c t with
      | nil => exact absurd hsp (splitOnChar_ne_nil c t)
      | cons y ys =>
        have hmem : (c ∈ x :: t) ↔ (c ∈ t) := by
          constructor
          · intro hmm
            rcases List.mem_cons.mp hmm with h1 | h1
            · exact absurd h1.symm hx
            · exact h1
          · exact fun hmm => List.mem_cons_of_mem x hmm
        rw [splitOnChar.eq_def]
        simp only [if_neg hx, hsp]
        rw [hsp] at ih
        simp only [List.get?_cons_succ] at ih ⊢
        rw [List.dropWhile_cons]
        simp only [bne_iff_ne, ne_eq, hx, not_false_eq_true, if_true]
        rw [if_congr hmem rfl rfl]
        exact ih

theorem takeWhile_length_le (p : Char → Bool) (xs : Chars) :
    (xs.takeWhile p).length ≤ xs.length := by
  induction xs with
  | nil => simp
  | cons x t ih =>
    rw [List.takeWhile_cons]
    by_cases hp : p x
    · simpa [hp] using Nat.succ_le_succ ih
    · simp [hp]

theorem mem_take_of_le_takeWhile (p : Char → Bool) (xs : Chars) (k : Nat)
    (hk : k ≤ (xs.takeWhile p).length) : ∀ c ∈ xs.take k, p c = true := by
  induction xs generalizing k with
  | nil => simp
  | cons x t ih =>
    cases k with
    | zero => simp
    | succ k' =>
      rw [List.takeWhile_cons] at hk
      by_cases hp : p x
      · simp only [if_pos hp, List.length_cons, Nat.succ_le_succ_iff] at hk
        intro c hc
        rcases List.mem_cons.mp hc with hcx | hct
        · exact hcx ▸ hp
        · exact ih k' hk c hct
      · simp [hp] at hk


theorem takeWhile_app_of_all (p : Char → Bool) (a b : Chars)
    (ha : ∀ c ∈ a, p c = true) : (a ++ b).takeWhile p = a ++ b.takeWhile p := by
  induction a with
  | nil => simp
  | cons x t ih =>
    have hx : p x = true := ha x (List.mem_cons_self x t)
    rw [List.cons_append, List.takeWhile_cons, if_pos hx,
      ih (fun c hc => ha c (List.mem_cons_of_mem x hc)), List.cons_append]

theorem utf8Bytes_append (a b : Chars) :
    utf8Bytes (a ++ b) = utf8Bytes a ++ utf8Bytes b := by
  simp [utf8Bytes]

/-! ### Lemmas about the route matcher -/

theorem slash_not_wordHyphen : isWordHyphen '/' = false := by decide

theorem goParamF_sound (g : Chars → Option (List Chars)) (xs : Chars) :
    ∀ n caps, goParamF g xs n = some caps →
      ∃ k caps2, 1 ≤ k ∧ k ≤ n ∧ caps = xs.take k :: caps2 ∧ g (xs.drop k) = some caps2 := by
  intro n
  induction n with
  | zero => intro caps h; exact absurd h (by simp [goParamF])
  | succ n ih =>
    intro caps h
    rcases hg : g (xs.drop (n + 1)) with - | caps2
    · rw [goParamF, hg] at h
      rcases ih caps h with ⟨k, caps2, h1, h2, h3, h4⟩
      exact ⟨k, caps2, h1, Nat.le_succ_of_le h2, h3, h4⟩
    · rw [goParamF, hg] at h
      injection h with h
      exact ⟨n + 1, caps2, Nat.succ_le_succ (Nat.zero_le n), Nat.le_refl _, h.symm, hg⟩

theorem goParamF_hit (g : Chars → Option (List Chars)) (xs : Chars) :
    ∀ n k, 1 ≤ k → k ≤ n → (g (xs.drop k)).isSome = true →
      (goParamF g xs n).isSome = true := by
  intro n
  induction n with
  | zero => intro k h1 h2; omega
  | succ n ih =>
    intro k h1 h2 h3
    rcases hg : g (xs.drop (n + 1)) with - | caps2
    · rw [goParamF, hg]
      rcases Nat.lt_or_ge k (n + 1) with hlt | hge
      · exact ih k h1 (Nat.lt_succ_iff.mp hlt) h3
      · have hkn : k = n + 1 := Nat.le_antisymm h2 hge
        rw [hkn, hg] at h3
        simp at h3
    · rw [goParamF, hg]
      simp

theorem filterMap_nameOf_param (nm : Chars) (ps : List Piece) :
    (Piece.param nm :: ps).filterMap Piece.nameOf = nm :: ps.filterMap Piece.nameOf := by
  simp [List.filterMap_cons, Piece.nameOf]

theorem matchPiecesF_sound :
    ∀ f ps xs caps, matchPiecesF f ps xs = some caps →
      reassemble ps caps = xs ∧
      caps.length = (ps.filterMap Piece.nameOf).length ∧
      ∀ c ∈ caps, c ≠ [] ∧ c.all isWordHyphen = true := by
  intro f
  induction f with
  | zero => intro ps xs caps h; exact absurd h (by simp [matchPiecesF])
  | succ f ih =>
    intro ps xs caps h
    match ps with
    | [] =>
      rw [matchPiecesF] at h
      by_cases hx : xs.isEmpty
      · rw [if_pos hx] at h
        injection h with h
        rw [← h, List.isEmpty_iff.mp hx]
        exact ⟨rfl, rfl, by simp⟩
      · rw [if_neg hx] at h
        exact absurd h (by simp)
    | .lit c :: ps =>
      match xs with
      | [] => exact absurd h (by simp [matchPiecesF])
      | x :: rest =>
        rw [matchPiecesF] at h
        by_cases hx : x = c
        · rw [if_pos hx] at h
          rcases ih ps rest caps h with ⟨h1, h2, h3⟩
          subst hx
          exact ⟨by rw [reassemble, h1], by simpa using h2, h3⟩
        · rw [if_neg hx] at h
          exact absurd h (by simp)
    | .param nm :: ps =>
      rw [matchPiecesF] at h
      rcases goParamF_sound _ xs _ caps h with ⟨k, caps2, hk1, hk2, hceq, hrest⟩
      rcases ih ps (xs.drop k) caps2 hrest with ⟨h1, h2, h3⟩
      subst hceq
      have hkxs : k ≤ xs.length := Nat.le_trans hk2 (takeWhile_length_le _ xs)
      refine ⟨by rw [reassemble, h1, List.take_append_drop],
        by rw [filterMap_nameOf_param]; simpa using h2, ?_⟩
      intro c hc
      rcases List.mem_cons.mp hc with hcx | hct
      · subst hcx
        constructor
        · match k, hk1, xs, hkxs with
          | k + 1, _, x :: t, _ => simp
        · exact List.all_eq_true.mpr (mem_take_of_le_takeWhile isWordHyphen xs k hk2)
      · exact h3 c hct

theorem matchPiecesF_complete :
    ∀ ps caps xs f, ps.length < f →
      reassemble ps caps = xs →
      caps.length = (ps.filterMap Piece.nameOf).length →
      (∀ c ∈ caps, c ≠ [] ∧ c.all isWordHyphen = true) →
      (matchPiecesF f ps xs).isSome = true := by
  intro ps
  induction ps with
  | nil =>
    intro caps xs f hf hre hlen hcaps
    match f, hf with
    | f + 1, _ =>
      rw [matchPiecesF]
      rw [reassemble] at hre
      rw [← hre]
      simp
  | cons p ps ih =>
    intro caps xs f hf hre hlen hcaps
    match f, hf with
    | f + 1, hf =>
      have hf2 : ps.length < f := by
        simp only [List.length_cons] at hf
        omega
      match p with
      | .lit c =>
        rw [reassemble] at hre
        rw [← hre, matchPiecesF]
        rw [if_pos rfl]
        exact ih caps _ f hf2 rfl (by simpa using hlen) hcaps
      | .param nm =>
        match caps with
        | [] =>
          rw [filterMap_nameOf_param] at hlen
          simp at hlen
        | c0 :: caps2 =>
          rw [reassemble] at hre
          have hc0 := hcaps c0 (List.mem_cons_self c0 caps2)
          rw [← hre, matchPiecesF]
          have hall : ∀ x ∈ c0, isWordHyphen x = true :=
            fun x hx => List.all_eq_true.mp hc0.2 x hx
          have htw : (c0 ++ reassemble ps caps2).takeWhile isWordHyphen
              = c0 ++ (reassemble ps caps2).takeWhile isWordHyphen :=
            takeWhile_app_of_all isWordHyphen c0 _ hall
          apply goParamF_hit _ _ _ c0.length
          · rcases hnil : c0 with - | ⟨a, c0t⟩
            · exact absurd hnil hc0.1
            · simp
          · rw [htw, List.length_append]
            exact Nat.le_add_right _ _
          · rw [List.drop_left]
            refine ih caps2 _ f hf2 rfl ?_
              (fun c hc => hcaps c (List.mem_cons_of_mem c0 hc))
            rw [filterMap_nameOf_param] at hlen
            simpa using hlen

theorem matchPieces_sound (ps : List Piece) (xs : Chars) (caps : List Chars)
    (h : matchPieces ps xs = some caps) :
    reassemble ps caps = xs ∧
    caps.length = (ps.filterMap Piece.nameOf).length ∧
    ∀ c ∈ caps, c ≠ [] ∧ c.all isWordHyphen = true :=
  matchPiecesF_sound _ ps xs caps h

theorem matchPieces_complete (ps : List Piece) (caps : List Chars) (xs : Chars)
    (hre : reassemble ps caps = xs)
    (hlen : caps.length = (ps.filterMap Piece.nameOf).length)
    (hcaps : ∀ c ∈ caps, c ≠ [] ∧ c.all isWordHyphen = true) :
    (matchPieces ps xs).isSome = true :=
  matchPiecesF_complete ps caps xs (ps.length + 1) (Nat.lt_succ_self _) hre hlen hcaps

theorem firstMatch_spec (routes : List Chars) (path R : Chars) (caps : List Chars)
    (h : firstMatch routes path = some (R, caps)) :
    matchPieces (parseRoute R) path = some caps ∧
    ∃ i, routes.get? i = some R ∧
      ∀ j, j < i → ∀ r, routes.get? j = some r → matchPieces (parseRoute r) path = none := by
  induction routes with
  | nil => exact absurd h (by simp [firstMatch])
  | cons r rs ih =>
    rcases hm : matchPieces (parseRoute r) path with - | caps1
    · rw [firstMatch, hm] at h
      rcases ih h with ⟨h1, i, h2, h3⟩
      refine ⟨h1, i + 1, by simpa using h2, ?_⟩
      intro j hj r2 hr2
      match j with
      | 0 =>
        simp only [List.get?_cons_zero] at hr2
        injection hr2 with hr2
        rw [← hr2]
        exact hm
      | j + 1 =>
        simp only [List.get?_cons_succ] at hr2
        exact h3 j (Nat.lt_of_succ_lt_succ hj) r2 hr2
    · rw [firstMatch, hm] at h
      injection h with h
      injection h with hR hcaps2
      subst hR
      subst hcaps2
      exact ⟨hm, 0, rfl, fun j hj => absurd hj (Nat.not_lt_zero j)⟩

theorem firstMatch_isSome_of_mem (routes : List Chars) (path P : Chars)
    (hP : P ∈ routes) (hm : (matchPieces (parseRoute P) path).isSome = true) :
    (firstMatch routes path).isSome = true := by
  induction routes with
  | nil => exact absurd hP (List.not_mem_nil P)
  | cons r rs ih =>
    rcases hr : matchPieces (parseRoute r) path with - | caps1
    · rw [firstMatch, hr]
      rcases List.mem_cons.mp hP with hPr | hPrs
      · subst hPr
        rw [hr] at hm
        simp at hm
      · exact ih hPrs
    · rw [firstMatch, hr]
      simp

/-! ### Lemmas about the response writer -/

theorem foldl_status_statusCode (cs : List Status) (st : HttpResState) :
    (cs.foldl HttpResState.status st).statusCode = cs.getLast?.getD st.statusCode := by
  induction cs generalizing st with
  | nil => rfl
  | cons c cs ih =>
    rw [List.foldl_cons, ih]
    cases cs with
    | nil => rfl
    | cons d ds =>
      rw [List.getLast?_cons_cons]
      rcases hlast : (d :: ds).getLast? with - | x
      · rw [List.getLast?_eq_none_iff] at hlast
        exact absurd hlast (by simp)
      · rfl

theorem litMatchF (cs : Chars) :
    ∀ f path, cs.length < f →
      (((matchPiecesF f (cs.map Piece.lit) path).isSome = true) ↔ path = cs) := by
  induction cs with
  | nil =>
    intro f path hf
    match f, hf with
    | f + 1, _ =>
      cases path with
      | nil => simp [matchPiecesF]
      | cons x xs => simp [matchPiecesF]
  | cons c cs ih =>
    intro f path hf
    match f, hf with
    | f + 1, hf =>
      have hf2 : cs.length < f := by
        simp only [List.length_cons] at hf
        omega
      cases path with
      | nil => simp [matchPiecesF]
      | cons x xs =>
        rw [List.map_cons, matchPiecesF]
        by_cases hx : x = c
        · rw [if_pos hx]
          subst hx
          rw [ih f xs hf2]
          simp
        · rw [if_neg hx]
          simp [hx]

/-! ### Lemmas about header parsing -/

theorem parseHeaderLines_clean (hls : List Chars) :
    ∀ acc, (∀ l ∈ hls, ':' ∈ l) →
      parseHeaderLines hls acc = some (hls.foldl (fun a l =>
        jsUpsert a
          (toLowerJs (replaceFirstChar '-' '_' (l.takeWhile (fun c => c != ':'))))
          (jsTrim (((l.dropWhile (fun c => c != ':')).drop 1).takeWhile (fun c => c != ':'))))
        acc) := by
  induction hls with
  | nil => intro acc h4; rfl
  | cons l ls ih =>
    intro acc h4
    have hc : ':' ∈ l := h4 l (List.mem_cons_self l ls)
    have hget := splitOnChar_get1 ':' l
    rw [if_pos hc] at hget
    rw [parseHeaderLines, hget, splitOnChar_headD, List.foldl_cons]
    exact ih _ (fun l2 hl2 => h4 l2 (List.mem_cons_of_mem l hl2))

theorem splitCrlf_block (body : Chars) (h3 : '\r' ∉ body) :
    ∀ hls : List Chars, (∀ l ∈ hls, '\r' ∉ l) →
      splitCrlf ((hls.map (fun l => l ++ crlfL)).flatten ++ crlfL ++ body)
        = hls ++ [[], body] := by
  intro hls
  induction hls with
  | nil =>
    intro h2
    rw [List.map_nil, List.flatten_nil]
    have hh : ([] : Chars) ++ crlfL ++ body = '\r' :: '\n' :: body := rfl
    rw [hh, splitCrlf, splitCrlf_none body h3]
    rfl
  | cons l ls ih =>
    intro h2
    have hl : '\r' ∉ l := h2 l (List.mem_cons_self l ls)
    have hassoc :
        (((l ++ crlfL) :: ls.map (fun l => l ++ crlfL)).flatten) ++ crlfL ++ body
          = l ++ ('\r' :: '\n' :: ((ls.map (fun l => l ++ crlfL)).flatten ++ crlfL ++ body)) := by
      rw [List.flatten_cons]
      simp [crlfL, List.append_assoc]
    rw [List.map_cons, hassoc, splitCrlf_app l _ hl,
      ih (fun l2 hl2 => h2 l2 (List.mem_cons_of_mem l hl2))]
    rfl

theorem splitCrlf_assembled (ml : Chars) (hls : List Chars) (body : Chars)
    (h1 : '\r' ∉ ml) (h2 : ∀ l ∈ hls, '\r' ∉ l) (h3 : '\r' ∉ body) :
    splitCrlf (ml ++ crlfL ++ (hls.map (fun l => l ++ crlfL)).flatten ++ crlfL ++ body)
      = ml :: (hls ++ [[], body]) := by
  have hassoc :
      ml ++ crlfL ++ (hls.map (fun l => l ++ crlfL)).flatten ++ crlfL ++ body
        = ml ++ ('\r' :: '\n' :: ((hls.map (fun l => l ++ crlfL)).flatten ++ crlfL ++ body)) := by
    simp [crlfL, List.append_assoc]
  rw [hassoc, splitCrlf_app ml _ h1, splitCrlf_block body h3 hls h2]

/-! ### Claim theorems -/

/-- C2: for every registered pattern list, a path that structurally
decomposes against some registered pattern (non-empty word/hyphen text at
each parameter position, pattern literals elsewhere) is matched; the match
returns the first-registered matching pattern, and the captures it returns
are exactly the literal path text at the parameter positions (their
interleaving with the pattern literals reassembles the path), each capture
non-empty, drawn from the word/hyphen class, and in particular free of
'/'. -/
theorem routeMatchFaithful (routes : List Chars) (path P : Chars) (caps0 : List Chars)
    (hP : P ∈ routes) (hpar : paramNamesOf P ≠ [])
    (hre : reassemble (parseRoute P) caps0 = path)
    (hlen : caps0.length = (paramNamesOf P).length)
    (hc : ∀ c ∈ caps0, c ≠ [] ∧ c.all isWordHyphen = true) :
    ∃ R caps i, firstMatch routes path = some (R, caps) ∧
      routes.get? i = some R ∧
      (∀ j, j < i → ∀ r, routes.get? j = some r → matchPieces (parseRoute r) path = none) ∧
      reassemble (parseRoute R) caps = path ∧
      ∀ c ∈ caps, c ≠ [] ∧ c.all isWordHyphen = true ∧ '/' ∉ c := by
  have hsome := firstMatch_isSome_of_mem routes path P hP
    (matchPieces_complete _ caps0 path hre hlen hc)
  obtain ⟨⟨R, caps⟩, hfm⟩ := Option.isSome_iff_exists.mp hsome
  rcases firstMatch_spec routes path R caps hfm with ⟨hmp, i, hi, hfirst⟩
  rcases matchPieces_sound _ _ _ hmp with ⟨h1, h2, h3⟩
  refine ⟨R, caps, i, hfm, hi, hfirst, h1, ?_⟩
  intro c hcmem
  rcases h3 c hcmem with ⟨hne, hall⟩
  refine ⟨hne, hall, ?_⟩
  intro hsl
  have hcontra := List.all_eq_true.mp hall '/' hsl
  rw [slash_not_wordHyphen] at hcontra
  exact Bool.false_ne_true hcontra

/-- Witness for C2 at the registered pattern "/echo/:str" and the path
"/echo/hello". -/
theorem routeMatchFaithful_w :
    ∃ R caps i, firstMatch (routesFor Method.GET) "/echo/hello".data = some (R, caps) ∧
      (routesFor Method.GET).get? i = some R ∧
      (∀ j, j < i → ∀ r, (routesFor Method.GET).get? j = some r →
        matchPieces (parseRoute r) "/echo/hello".data = none) ∧
      reassemble (parseRoute R) caps = "/echo/hello".data ∧
      ∀ c ∈ caps, c ≠ [] ∧ c.all isWordHyphen = true ∧ '/' ∉ c :=
  routeMatchFaithful (routesFor Method.GET) "/echo/hello".data "/echo/:str".data
    ["hello".data] (by decide) (by decide) (by decide) (by decide) (by decide)

/-- C7: for every registered pattern with zero ':' parameters (here "/"
and "/user-agent") and every raw path, the constructed matcher accepts the
path exactly when the path is string-equal to the pattern. -/
theorem zeroParamExactMatch (m : Method) (r path : Chars)
    (hr : r ∈ routesFor m) (h0 : paramNamesOf r = []) :
    ((matchPieces (parseRoute r) path).isSome = true) ↔ path = r := by
  cases m with
  | GET =>
    fin_cases hr
    · have hlit : parseRoute "/".data = "/".data.map Piece.lit := by decide
      rw [matchPieces, hlit, List.length_map]
      exact litMatchF "/".data _ path (Nat.lt_succ_self _)
    · exact absurd h0 (by decide)
    · have hlit : parseRoute "/user-agent".data = "/user-agent".data.map Piece.lit := by decide
      rw [matchPieces, hlit, List.length_map]
      exact litMatchF "/user-agent".data _ path (Nat.lt_succ_self _)
    · exact absurd h0 (by decide)
  | POST =>
    fin_cases hr
    · exact absurd h0 (by decide)

/-- Witness for C7 at the registered zero-parameter pattern "/user-agent",
applying both directions at two paths. -/
theorem zeroParamExactMatch_w :
    (((matchPieces (parseRoute "/user-agent".data) "/user-agent".data).isSome = true)
        ↔ "/user-agent".data = "/user-agent".data) ∧
    (((matchPieces (parseRoute "/user-agent".data) "/user-agentx".data).isSome = true)
        ↔ "/user-agentx".data = "/user-agent".data) :=
  ⟨zeroParamExactMatch Method.GET "/user-agent".data "/user-agent".data
      (by decide) (by decide),
   zeroParamExactMatch Method.GET "/user-agent".data "/user-agentx".data
      (by decide) (by decide)⟩

/-- C6: the status code serialized into the status line of the emitted
response is the argument of the last `status` call made before `send`,
and 404 when `status` was never called: the written bytes start with
"HTTP/1.1 " followed by that code and its reason phrase. -/
theorem statusLastWins (cs : List Status) (data : Option ResType) (enc : Bool)
    (hs0 : List KV) :
    ∃ tail, sendBytes (cs.foldl HttpResState.status ⟨Status.s404, hs0, enc⟩) data
      = utf8Bytes ("HTTP/1.1 ".data ++ (cs.getLast?.getD Status.s404).codeChars
          ++ ' ' :: (cs.getLast?.getD Status.s404).reasonChars ++ crlfL) ++ tail := by
  have hst := foldl_status_statusCode cs ⟨Status.s404, hs0, enc⟩
  generalize hgen : cs.foldl HttpResState.status ⟨Status.s404, hs0, enc⟩ = st at hst ⊢
  refine ⟨utf8Bytes (headersChars (encodeStep st.encode (contentStep st.headers data)).1
      ++ crlfL) ++ (encodeStep st.encode (contentStep st.headers data)).2, ?_⟩
  rw [sendBytes, headChars, hst, statusLineChars]
  simp only [utf8Bytes_append, List.append_assoc]

/-- C9: with the encoding decision set and `send()` called with no body
argument, the emitted response still carries a non-empty body, namely the
compression of the empty byte string, together with a Content-Encoding:
gzip header and a Content-Length equal to the compressed length. -/
theorem compressedEmptySend (c : Status) :
    sendBytes ⟨c, [], true⟩ none
      = utf8Bytes (statusLineChars c
          ++ headersChars [(ceKey, "gzip".data), (clKey, natChars (gzipSync []).length)]
          ++ crlfL)
        ++ gzipSync [] ∧
    gzipSync [] ≠ [] ∧
    jsLookup (encodeStep true (contentStep [] none)).1 ceKey = some "gzip".data ∧
    jsLookup (encodeStep true (contentStep [] none)).1 clKey
      = some (natChars (gzipSync []).length) :=
  ⟨rfl, by decide, rfl, rfl⟩

/-- C4: with the parsed accept-encoding header equal to "gzip", the
encoding decision is set, and for every status and body argument, the
emitted bytes end with the compression of the uncompressed body (which
the decoder maps back to that body), the final header map carries
Content-Encoding: gzip, and its Content-Length is the compressed
length. -/
theorem gzipResponseShape (hs : List KV) (c : Status) (data : Option ResType)
    (h : jsLookup hs "accept_encoding".data = some "gzip".data) :
    decideEncoding hs = true ∧
    sendBytes ⟨c, [], decideEncoding hs⟩ data
      = utf8Bytes (statusLineChars c
          ++ headersChars (encodeStep true (contentStep [] data)).1 ++ crlfL)
        ++ gzipSync (uncompressedBody data) ∧
    gunzip (gzipSync (uncompressedBody data)) = some (uncompressedBody data) ∧
    jsLookup (encodeStep true (contentStep [] data)).1 ceKey = some "gzip".data ∧
    jsLookup (encodeStep true (contentStep [] data)).1 clKey
      = some (natChars (gzipSync (uncompressedBody data)).length) := by
  have hde : decideEncoding hs = true := by
    rw [decideEncoding, h]
    decide
  refine ⟨hde, ?_, ?_, ?_, ?_⟩
  · rw [hde]
    rcases data with - | d
    · rfl
    · rcases d with s | s | b <;> rfl
  · rcases data with - | d
    · rfl
    · rcases d with s | s | b <;> rfl
  · rcases data with - | d
    · rfl
    · rcases d with s | s | b <;> rfl
  · rcases data with - | d
    · rfl
    · rcases d with s | s | b <;> rfl

/-- Witness for C4 with headers {accept_encoding: gzip}, status 200 and a
plain-text body. -/
theorem gzipResponseShape_w :
    decideEncoding [("accept_encoding".data, "gzip".data)] = true ∧
    sendBytes ⟨Status.s200, [], decideEncoding [("accept_encoding".data, "gzip".data)]⟩
        (some (ResType.str "abc".data))
      = utf8Bytes (statusLineChars Status.s200
          ++ headersChars (encodeStep true (contentStep [] (some (ResType.str "abc".data)))).1
          ++ crlfL)
        ++ gzipSync (uncompressedBody (some (ResType.str "abc".data))) ∧
    gunzip (gzipSync (uncompressedBody (some (ResType.str "abc".data))))
      = some (uncompressedBody (some (ResType.str "abc".data))) ∧
    jsLookup (encodeStep true (contentStep [] (some (ResType.str "abc".data)))).1 ceKey
      = some "gzip".data ∧
    jsLookup (encodeStep true (contentStep [] (some (ResType.str "abc".data)))).1 clKey
      = some (natChars (gzipSync (uncompressedBody (some (ResType.str "abc".data)))).length) :=
  gzipResponseShape [("accept_encoding".data, "gzip".data)] Status.s200
    (some (ResType.str "abc".data)) (by decide)

/-- C8: with the accept-encoding header absent or equal to "identity",
the encoding decision is off, the emitted bytes end with the uncompressed
body, and no Content-Encoding header is present in the final header
map. -/
theorem identityNoCompression (hs : List KV) (c : Status) (data : Option ResType)
    (h : jsLookup hs "accept_encoding".data = none ∨
         jsLookup hs "accept_encoding".data = some "identity".data) :
    decideEncoding hs = false ∧
    sendBytes ⟨c, [], decideEncoding hs⟩ data
      = utf8Bytes (statusLineChars c ++ headersChars (contentStep [] data).1 ++ crlfL)
        ++ uncompressedBody data ∧
    ∀ kv ∈ (contentStep [] data).1, kv.1 ≠ ceKey := by
  have hde : decideEncoding hs = false := by
    rcases h with h | h
    · rw [decideEncoding, h]
    · rw [decideEncoding, h]
      decide
  refine ⟨hde, ?_, ?_⟩
  · rw [hde]
    rcases data with - | d
    · rfl
    · rcases d with s | s | b <;> rfl
  · intro kv hkv
    rcases data with - | d
    · rw [show (contentStep [] none).1 = ([] : List KV) from rfl] at hkv
      exact absurd hkv (List.not_mem_nil kv)
    · rcases d with s | s | b
      · rw [show (contentStep [] (some (ResType.obj s))).1
            = [(ctKey, "application/json".data), (clKey, natChars (utf8Bytes s).length)]
            from rfl] at hkv
        simp only [List.mem_cons, List.not_mem_nil, or_false] at hkv
        rcases hkv with rfl | rfl
        · exact (by decide : ctKey ≠ ceKey)
        · exact (by decide : clKey ≠ ceKey)
      · rw [show (contentStep [] (some (ResType.str s))).1
            = [(ctKey, "text/plain".data), (clKey, natChars (utf8Bytes s).length)]
            from rfl] at hkv
        simp only [List.mem_cons, List.not_mem_nil, or_false] at hkv
        rcases hkv with rfl | rfl
        · exact (by decide : ctKey ≠ ceKey)
        · exact (by decide : clKey ≠ ceKey)
      · rw [show (contentStep [] (some (ResType.buf b))).1
            = [(ctKey, "application/octet-stream".data), (clKey, natChars b.length)]
            from rfl] at hkv
        simp only [List.mem_cons, List.not_mem_nil, or_false] at hkv
        rcases hkv with rfl | rfl
        · exact (by decide : ctKey ≠ ceKey)
        · exact (by decide : clKey ≠ ceKey)

/-- Witness for C8 with an empty header map, status 200 and a plain-text
body. -/
theorem identityNoCompression_w :
    decideEncoding [] = false ∧
    sendBytes ⟨Status.s200, [], decideEncoding []⟩ (some (ResType.str "abc".data))
      = utf8Bytes (statusLineChars Status.s200
          ++ headersChars (contentStep [] (some (ResType.str "abc".data))).1 ++ crlfL)
        ++ uncompressedBody (some (ResType.str "abc".data)) ∧
    ∀ kv ∈ (contentStep [] (some (ResType.str "abc".data))).1, kv.1 ≠ ceKey :=
  identityNoCompression [] Status.s200 (some (ResType.str "abc".data)) (Or.inl rfl)

/-- C3 (counterexample to the claim as stated): on the request
"GET / HTTP/1.1\r\nA-B-C: x:y\r\n\r\nbody" the parser produces the key
"a_b-c" (only the first hyphen becomes an underscore) with value "x" (the
text between the first and second colon, whitespace-trimmed), while the
claim's reading produces "a_b_c" with value "x:y" and also treats the
blank separator line as a header line. -/
theorem headerParseDiffersFromClaim :
    headersOfRaw "GET / HTTP/1.1\r\nA-B-C: x:y\r\n\r\nbody".data
      = some [("a_b-c".data, "x".data)] ∧
    headersClaimC3 "GET / HTTP/1.1\r\nA-B-C: x:y\r\n\r\nbody".data
      = [("a_b_c".data, "x:y".data), ([], [])] ∧
    headersOfRaw "GET / HTTP/1.1\r\nA-B-C: x:y\r\n\r\nbody".data
      ≠ some (headersClaimC3 "GET / HTTP/1.1\r\nA-B-C: x:y\r\n\r\nbody".data) :=
  ⟨rfl, rfl, by decide⟩

/-- C3 (amended): for a request assembled from a method line, header
lines and a body, the parser treats every CRLF-separated line except the
method line and the final two lines (the blank separator and the body) as
a header line; each header line is split on colons, the key being the
text before the first colon with only its first hyphen replaced by an
underscore, lower-cased, and the value being the text between the first
and second colon trimmed of whitespace at both ends; later duplicate keys
overwrite earlier ones. -/
theorem headerParsingAmended (ml : Chars) (hls : List Chars) (body : Chars)
    (h1 : '\r' ∉ ml) (h2 : ∀ l ∈ hls, '\r' ∉ l) (h3 : '\r' ∉ body)
    (h4 : ∀ l ∈ hls, ':' ∈ l) :
    headersOfRaw (ml ++ crlfL ++ (hls.map (fun l => l ++ crlfL)).flatten ++ crlfL ++ body)
      = some (hls.foldl (fun a l =>
          jsUpsert a
            (toLowerJs (replaceFirstChar '-' '_' (l.takeWhile (fun ch => ch != ':'))))
            (jsTrim (((l.dropWhile (fun ch => ch != ':')).drop 1).takeWhile (fun ch => ch != ':'))))
          []) := by
  rw [headersOfRaw, headerLinesOf, splitCrlf_assembled ml hls body h1 h2 h3]
  have hlen : (ml :: (hls ++ [[], body])).length - 3 = hls.length := by simp
  rw [hlen]
  have hdrop : (ml :: (hls ++ [[], body])).drop 1 = hls ++ [[], body] := rfl
  rw [hdrop, List.take_left]
  exact parseHeaderLines_clean hls [] h4

/-- Witness for C3 (amended) on a request with two header lines, one of
them with extra hyphens and colons. -/
theorem headerParsingAmended_w :
    headersOfRaw ("GET / HTTP/1.1".data ++ crlfL
        ++ ((["Host: loc".data, "A-B-C: x:y".data].map (fun l => l ++ crlfL)).flatten)
        ++ crlfL ++ "b".data)
      = some (["Host: loc".data, "A-B-C: x:y".data].foldl (fun a l =>
          jsUpsert a
            (toLowerJs (replaceFirstChar '-' '_' (l.takeWhile (fun ch => ch != ':'))))
            (jsTrim (((l.dropWhile (fun ch => ch != ':')).drop 1).takeWhile (fun ch => ch != ':'))))
          []) :=
  headerParsingAmended "GET / HTTP/1.1".data ["Host: loc".data, "A-B-C: x:y".data] "b".data
    (by decide) (by decide) (by decide) (by decide)

set_option maxRecDepth 20000 in
/-- C1: evaluation of the server at the claim's input.  The raw path
"/files/missing.txt" does not match the registered pattern
"/files/:filename" (the dot is outside the parameter class of word
characters and hyphens), so the registered handler never runs and the
server answers with the bare unmatched-route frame instead of the
handler's 404 "File not found" response; a dot-free filename such as
"/files/missing" does reach the handler, which produces that response
when the file is absent. -/
theorem filesDottedNameBareFrame :
    firstMatch (routesFor Method.GET) "/files/missing.txt".data = none ∧
    (serverHandle "GET /files/missing.txt HTTP/1.1\r\n\r\n".data
        (fun _ => none) "/tmp/".data).map Prod.fst
      = some (utf8Bytes "HTTP/1.1 404 Not Found\r\n\r\n".data) ∧
    (serverHandle "GET /files/missing HTTP/1.1\r\n\r\n".data
        (fun _ => none) "/tmp/".data).map Prod.fst
      = some (utf8Bytes
          "HTTP/1.1 404 Not Found\r\nContent-Type: text/plain\r\nContent-Length: 14\r\n\r\nFile not found".data) :=
  ⟨rfl, rfl, rfl⟩

/-- C5: a request whose method has a route table, whose raw path matches
no registered pattern and has no exact-match handler, is answered with
exactly the bytes of "HTTP/1.1 404 Not Found\r\n\r\n": a bare frame with
zero headers and no body, bypassing the response writer. -/
theorem unmatchedRouteBareFrame (raw : Chars) (fs : Fs) (dir : Chars) (m : Method)
    (hs : List KV) (rawPath : Chars)
    (hm : methodOfTok ((splitOnChar ' ' raw).headD []) = some m)
    (hh : headersOfRaw raw = some hs)
    (hp : (splitOnChar ' ' raw).get? 1 = some rawPath)
    (hnm : firstMatch (routesFor m) rawPath = none)
    (hnl : lookupHandler m rawPath = none) :
    serverHandle raw fs dir = some (utf8Bytes "HTTP/1.1 404 Not Found\r\n\r\n".data, fs) := by
  simp only [serverHandle, hm, buildReq, hh, hp, hnm, hnl]

/-- Witness for C5 at the request "GET /unregistered/path". -/
theorem unmatchedRouteBareFrame_w :
    serverHandle "GET /unregistered/path HTTP/1.1\r\n\r\n".data (fun _ => none) "/tmp/".data
      = some (utf8Bytes "HTTP/1.1 404 Not Found\r\n\r\n".data, (fun _ => none : Fs)) :=
  unmatchedRouteBareFrame "GET /unregistered/path HTTP/1.1\r\n\r\n".data (fun _ => none)
    "/tmp/".data Method.GET [] "/unregistered/path".data
    (by decide) rfl (by decide) (by decide) rfl

/-- C10: a POST request resolved to the pattern "/files/:filename" whose
parsed body is the empty string makes the handler return without calling
send, so the server writes zero response bytes and the filesystem is
untouched. -/
theorem postEmptyBodySilent (raw : Chars) (fs : Fs) (dir : Chars) (req : HttpReq)
    (hm : methodOfTok ((splitOnChar ' ' raw).headD []) = some Method.POST)
    (hb : buildReq raw (routesFor Method.POST) = some req)
    (he : req.endpoint = "/files/:filename".data)
    (hbody : req.body = []) :
    serverHandle raw fs dir = some ([], fs) := by
  have hlook : lookupHandler Method.POST "/files/:filename".data = some postFilesHandler := rfl
  simp only [serverHandle, hm, hb, he, hlook]
  rcases hfn : jsLookup req.params "filename".data with - | fn
  · simp only [postFilesHandler, hfn]
  · simp only [postFilesHandler, hfn, hbody]
    simp

/-- Witness for C10 at the request "POST /files/abc" with an empty
body. -/
theorem postEmptyBodySilent_w :
    serverHandle "POST /files/abc HTTP/1.1\r\n\r\n".data (fun _ => none) "/tmp/".data
      = some ([], (fun _ => none : Fs)) :=
  postEmptyBodySilent "POST /files/abc HTTP/1.1\r\n\r\n".data (fun _ => none) "/tmp/".data
    ⟨"POST".data, "/files/:filename".data, [("filename".data, "abc".data)], [], []⟩
    (by decide) rfl rfl rfl

end TsHttp
